import Mathlib

/-!
Shallow embedding of the `concave-hull` crate (gift-opening concave hull).

The Rust code is generic over a real scalar (`f32`/`f64` through the
`HullScalar` trait alias).  We embed the scalar as `ℚ`, the executable
ordered subfield of the reals, so every comparison the code performs is
decidable and exact.  The concavity parameter additionally admits `+∞`
(a legal float), so it is embedded as `Conc`, a rational with a point at
infinity.

The angle-between primitive comes from nalgebra, an external collaborator
(spec section 2 and section 6 specify it only at its interface), so the
refinement engine is parameterized by an abstract `angle` function.  For
concrete evaluation we instantiate it with `pseudoAngle`, an order-faithful
rational surrogate of the true angle (see its doc comment).
-/

namespace CH

/-- 2D point / vector over ℚ (embeds `parry2d::math::Point<T>` and
nalgebra's 2D vectors; both are plain coordinate pairs). -/
structure Pt where
  x : ℚ
  y : ℚ
deriving DecidableEq

instance : Inhabited Pt := ⟨⟨0, 0⟩⟩

/-- Component-wise subtraction: `a - b` (nalgebra point/vector subtraction). -/
def Pt.sub (a b : Pt) : Pt := ⟨a.x - b.x, a.y - b.y⟩

/-- Vector negation (used only to state the spec's wording of claim C3). -/
def Pt.neg (a : Pt) : Pt := ⟨-a.x, -a.y⟩

/-- nalgebra `dot` on 2D vectors. -/
def Pt.dot (a b : Pt) : ℚ := a.x * b.x + a.y * b.y

/-- nalgebra `norm_squared` on 2D vectors. -/
def Pt.normSq (a : Pt) : ℚ := a.x * a.x + a.y * a.y

/-- `src/edge.rs`: helper struct for edges in the hull.  `i`, `j` are the
indices of the two endpoints, `point_i`, `point_j` their stored coordinates. -/
structure Edge where
  i : ℕ
  j : ℕ
  point_i : Pt
  point_j : Pt
deriving DecidableEq

/-- `Edge::norm_squared`: `(self.point_j - self.point_i).norm_squared()`. -/
def Edge.norm_squared (e : Edge) : ℚ := (e.point_j.sub e.point_i).normSq

/-- `Edge::split_by`: splits `self` in two by inserting `point` (with index
`idx`) in the middle of the edge. -/
def Edge.split_by (e : Edge) (point : Pt) (idx : ℕ) : Edge × Edge :=
  (⟨e.i, idx, e.point_i, point⟩, ⟨idx, e.j, point, e.point_j⟩)

/-- `Edge::new(i, j, points)`: indexes `points[i]` and `points[j]`; a Rust
index panic is modelled as `none`. -/
def Edge.mk? (i j : ℕ) (pts : List Pt) : Option Edge :=
  match pts.get? i, pts.get? j with
  | some a, some b => some ⟨i, j, a, b⟩
  | _, _ => none

/-- Total variant of `Edge.mk?`, equal to it whenever both indices are in
bounds (used to state theorems). -/
def mkEdge (pts : List Pt) (i j : ℕ) : Edge :=
  ⟨i, j, pts.getD i default, pts.getD j default⟩

/-! ### Segment intersection test (`src/segment_intersect.rs`) -/

/-- Numerator of the parameter `t` in `edges_intersect` (the `t_num` local). -/
def tNum (e1 e2 : Edge) : ℚ :=
  (e1.point_i.x - e2.point_i.x) * (e2.point_i.y - e2.point_j.y)
    - (e1.point_i.y - e2.point_i.y) * (e2.point_i.x - e2.point_j.x)

/-- Denominator of the parameter `t` in `edges_intersect` (the `t_denom` local). -/
def tDenom (e1 e2 : Edge) : ℚ :=
  (e1.point_i.x - e1.point_j.x) * (e2.point_i.y - e2.point_j.y)
    - (e1.point_i.y - e1.point_j.y) * (e2.point_i.x - e2.point_j.x)

/-- Numerator of the parameter `u` in `edges_intersect` (the `u_num` local,
including its `.neg()`). -/
def uNum (e1 e2 : Edge) : ℚ :=
  -((e1.point_i.x - e1.point_j.x) * (e1.point_i.y - e2.point_i.y)
    - (e1.point_i.y - e1.point_j.y) * (e1.point_i.x - e2.point_i.x))

/-- Denominator of the parameter `u` in `edges_intersect` (the `u_denom`
local; the source computes it by the same expression as `t_denom`). -/
def uDenom (e1 e2 : Edge) : ℚ :=
  (e1.point_i.x - e1.point_j.x) * (e2.point_i.y - e2.point_j.y)
    - (e1.point_i.y - e1.point_j.y) * (e2.point_i.x - e2.point_j.x)

/-- `edges_intersect` from `src/segment_intersect.rs`.  Edge equality in the
first branch is Rust `PartialEq`, which compares only the index pair.  The
`debug_assert!`s are compiled out in release builds and are not modelled. -/
def edges_intersect (e1 e2 : Edge) : Bool :=
  if e1.i = e2.i ∧ e1.j = e2.j then
    true
  else if e1.i = e2.j ∨ e2.i = e1.j then
    false
  else
    decide (tDenom e1 e2 ≠ 0 ∧ tNum e1 e2 * tDenom e1 e2 ≥ 0
      ∧ |tNum e1 e2| ≤ |tDenom e1 e2|
      ∧ uDenom e1 e2 ≠ 0 ∧ uNum e1 e2 * uDenom e1 e2 ≥ 0
      ∧ |uNum e1 e2| ≤ |uDenom e1 e2|)

/-! ### Concavity scalar with a point at infinity -/

/-- The concavity parameter: a float in `[0, +∞]`.  `fin q` embeds a finite
value, `inf` embeds `+∞`. -/
inductive Conc where
  | fin (q : ℚ)
  | inf
deriving DecidableEq

/-- `concavity.powi(2)` (float squaring; `(+∞)² = +∞`). -/
def Conc.powi2 : Conc → Conc
  | .fin q => .fin (q * q)
  | .inf => .inf

/-- The float comparison `x > c` for a finite `x` against a possibly
infinite threshold `c` (`x > +∞` is false). -/
def gtConc (x : ℚ) : Conc → Bool
  | .fin q => decide (q < x)
  | .inf => false

/-! ### Candidate search (the `'points` scan of `concave_hull_inner`) -/

/-- The score of candidate `p` against `edge`: the body of the `'points`
loop of `concave_hull_inner`, with `e1 = p - edge.point_i`,
`e2 = edge.point_j - p`, `e_v = edge.point_j - edge.point_i` and the score
`e_v.angle(&e1).max(e_v.angle(&e2))`. -/
def splitScore (angle : Pt → Pt → ℚ) (edge : Edge) (p : Pt) : ℚ :=
  let e1 := p.sub edge.point_i
  let e2 := edge.point_j.sub p
  let e_v := edge.point_j.sub edge.point_i
  max (angle e_v e1) (angle e_v e2)

/-- Modelled from the spec: the scoring literally as worded by section 4.3a
and claim C3 — the larger of the angle between `e`'s direction and the vector
from `e.a` to `p`, and the angle between `e`'s direction *reversed* and the
vector from `p` to `e.b`.  (The source passes the unreversed direction to the
second angle; this definition exists to compare the spec's wording with the
code.) -/
def claimScore (angle : Pt → Pt → ℚ) (edge : Edge) (p : Pt) : ℚ :=
  max (angle (edge.point_j.sub edge.point_i) (p.sub edge.point_i))
      (angle (edge.point_j.sub edge.point_i).neg (edge.point_j.sub p))

/-- One step of the candidate scan, at enumeration index `t` with point `p`:
skip the edge's own endpoints, otherwise replace the running best only when
its score is strictly greater (`best.2 > angle` in the source). -/
def bestStep (angle : Pt → Pt → ℚ) (edge : Edge) (t : ℕ) (p : Pt)
    (best : Option (ℕ × Pt × ℚ)) : Option (ℕ × Pt × ℚ) :=
  if t = edge.i ∨ t = edge.j then best
  else
    match best with
    | none => some (t, p, splitScore angle edge p)
    | some b =>
      if b.2.2 > splitScore angle edge p then some (t, p, splitScore angle edge p)
      else some b

/-- The `'points` loop: fold `bestStep` over the enumerated point cloud,
starting the enumeration at `t`. -/
def bestAux (angle : Pt → Pt → ℚ) (edge : Edge) :
    ℕ → List Pt → Option (ℕ × Pt × ℚ) → Option (ℕ × Pt × ℚ)
  | _, [], best => best
  | t, p :: ps, best => bestAux angle edge (t + 1) ps (bestStep angle edge t p best)

/-- The full candidate search over `points.iter().enumerate()`; `none`
models the `expect("Point cloud should have at least one point")` panic. -/
def bestCandidate (angle : Pt → Pt → ℚ) (pts : List Pt) (edge : Edge) :
    Option (ℕ × Pt × ℚ) :=
  bestAux angle edge 0 pts none

/-! ### The refinement loop (`concave_hull_inner`'s `'edges` loop) -/

/-- `BinaryHeap::pop`: remove a maximum-priority element (priority is
`Edge::cmp`, i.e. `norm_squared`).  Rust leaves the choice among equal
maxima unspecified; this model removes the earliest maximal element.  All
claims decided through concrete runs use edge sets with pairwise distinct
lengths, where every max-heap pops in the same order. -/
def popMax : List Edge → Option (Edge × List Edge)
  | [] => none
  | e :: es =>
    match popMax es with
    | none => some (e, [])
    | some (m, rest) =>
      if e.norm_squared < m.norm_squared then some (m, e :: rest) else some (e, es)

/-- Result of one iteration of the `'edges` loop on a popped edge. -/
inductive StepRes where
  | accepted (heap : List Edge) (boundary : Finset ℕ) (hull : List Edge)
  | splitted (heap : List Edge) (boundary : Finset ℕ) (hull : List Edge)
  | panicked
deriving DecidableEq

/-- The body of the `'edges` loop of `concave_hull_inner`, acting on the
popped `edge`, the remaining pending edges `rest`, the boundary-point set
and the finalized `concave_hull` accumulator.  `csq` is the already squared
concavity.  `accepted` is the `concave_hull.push(edge)` exit, `splitted` the
`continue 'edges` exit, `panicked` the `best.expect(..)` abort. -/
def refineStep (angle : Pt → Pt → ℚ) (pts : List Pt) (csq : Conc) (edge : Edge)
    (rest : List Edge) (boundary : Finset ℕ) (hull : List Edge) : StepRes :=
  if gtConc edge.norm_squared csq then
    match bestCandidate angle pts edge with
    | none => .panicked
    | some (bi, bp, _) =>
      if bi ∈ boundary then .accepted rest boundary (hull ++ [edge])
      else if (hull ++ rest).all
          (fun d => !(edges_intersect d (edge.split_by bp bi).1
            || edges_intersect d (edge.split_by bp bi).2)) then
        .splitted ((edge.split_by bp bi).1 :: (edge.split_by bp bi).2 :: rest)
          (insert bi boundary) hull
      else .accepted rest boundary (hull ++ [edge])
  else .accepted rest boundary (hull ++ [edge])

/-- Result of the whole `'edges` loop.  `fuelout` is an artifact of the
embedding (the Rust loop carries no fuel); `loop_no_fuelout` below proves it
unreachable at the fuel `concave_hull_inner` supplies. -/
inductive LoopRes where
  | out (hull : List Edge)
  | panicked
  | fuelout
deriving DecidableEq

/-- The `'edges` loop: pop the longest pending edge and process it with
`refineStep` until the heap is empty. -/
def loop (angle : Pt → Pt → ℚ) (pts : List Pt) (csq : Conc) :
    ℕ → List Edge → Finset ℕ → List Edge → LoopRes
  | 0, heap, _, hull =>
    match popMax heap with
    | none => .out hull
    | some _ => .fuelout
  | fuel + 1, heap, boundary, hull =>
    match popMax heap with
    | none => .out hull
    | some (edge, rest) =>
      match refineStep angle pts csq edge rest boundary hull with
      | .accepted h2 b2 hl2 => loop angle pts csq fuel h2 b2 hl2
      | .splitted h2 b2 hl2 => loop angle pts csq fuel h2 b2 hl2
      | .panicked => .panicked

/-! ### Hull reconstruction (the sort at the end of `concave_hull_inner`) -/

/-- `Vec::swap_remove(k)`: remove index `k` by moving the last element into
its place. -/
def swapRemove {α : Type} (l : List α) (k : ℕ) : List α :=
  match l.getLast? with
  | none => []
  | some last => (l.set k last).dropLast

/-- The pointer-walking loop of the final sort: find the edge whose `i`
equals `curr.j` (`position` + `swap_remove`), emit `curr`'s start point,
advance.  `none` models the `expect("Concave hull is well-formed")` panic;
the fuel is supplied as the initial vector length, which the loop never
exceeds since every iteration removes one edge. -/
def sortLoop : ℕ → Edge → List Edge → List (ℕ × Pt) → Option (List (ℕ × Pt))
  | _, curr, [], acc => some (acc ++ [(curr.i, curr.point_i)])
  | 0, _, _ :: _, _ => none
  | fuel + 1, curr, vec@(_ :: _), acc =>
    match List.findIdx? (fun d => d.i == curr.j) vec with
    | none => none
    | some pos =>
      match vec.get? pos with
      | none => none
      | some next =>
        sortLoop fuel next (swapRemove vec pos) (acc ++ [(curr.i, curr.point_i)])

/-- The final sort of `concave_hull_inner`: start from the edge popped off
the end of the accumulator (`concave_hull.pop()`), then walk the cycle.
`none` models the `expect("Concave hull has at least one point")` panic. -/
def sortHull (hull : List Edge) : Option (List (ℕ × Pt)) :=
  match hull.getLast? with
  | none => none
  | some curr => sortLoop hull.length curr hull.dropLast []

/-! ### `concave_hull_inner` and the public wrappers -/

/-- Option-propagating map: a Rust loop that computes `f` on each element
and panics (`none`) at the first failure. -/
def mapMO {α β : Type} (f : α → Option β) : List α → Option (List β)
  | [] => some []
  | a :: l =>
    match f a, mapMO f l with
    | some b, some bs => some (b :: bs)
    | _, _ => none

/-- The heap-seeding loop of `concave_hull_inner`: for each `id`, the edge
from `convex_hull[id]` to `convex_hull[(id + 1) % convex_hull.len()]`. -/
def initEdges (pts : List Pt) (conv : List ℕ) : Option (List Edge) :=
  mapMO
    (fun id => Edge.mk? (conv.getD id 0) (conv.getD ((id + 1) % conv.length) 0) pts)
    (List.range conv.length)

/-- Total description of the `id`-th initial edge (used in theorem
statements; agrees with `initEdges` when all hull indices are in bounds). -/
def cycleEdge (pts : List Pt) (conv : List ℕ) (id : ℕ) : Edge :=
  mkEdge pts (conv.getD id 0) (conv.getD ((id + 1) % conv.length) 0)

/-- The list of all initial convex-hull edges, in seeding order. -/
def cycleEdges (pts : List Pt) (conv : List ℕ) : List Edge :=
  (List.range conv.length).map (cycleEdge pts conv)

/-- The fuel `concave_hull_inner` hands to `loop`; `loop_no_fuelout` proves
it is always enough, so the `fuelout` branch below is dead code. -/
def loopFuel (pts : List Pt) (heap : List Edge) : ℕ :=
  heap.length + 3 * pts.length

/-- `concave_hull_inner` from `src/concave.rs`.  `none` models a panic
(out-of-bounds index, empty candidate search, or broken cycle). -/
def concave_hull_inner (angle : Pt → Pt → ℚ) (pts : List Pt) (concavity : Conc)
    (convex_hull : List ℕ) : Option (List (ℕ × Pt)) :=
  if pts.length ≤ 3 then
    mapMO (fun id => (pts.get? id).map (fun p => (id, p))) convex_hull
  else
    match initEdges pts convex_hull with
    | none => none
    | some heap =>
      match loop angle pts concavity.powi2 (loopFuel pts heap) heap
          convex_hull.toFinset [] with
      | .out hull => sortHull hull
      | .panicked => none
      | .fuelout => none

/-- The public `concave_hull` (`src/lib.rs`, both precisions): the `≤ 1`
fast path, then the convex hull provider (parry2d's `convex_hull_idx`, an
external collaborator passed here as the function `prov`), then
`concave_hull_inner`. -/
def concave_hull (angle : Pt → Pt → ℚ) (prov : List Pt → List ℕ)
    (pts : List Pt) (concavity : Conc) : Option (List (ℕ × Pt)) :=
  if pts.length ≤ 1 then some pts.enum
  else concave_hull_inner angle pts concavity (prov pts)

/-- Modelled from the spec: an order-faithful executable surrogate for
nalgebra's `angle` (external collaborator, spec sections 2 and 6).  The true
angle is `arccos (dot u v / (‖u‖ ‖v‖)) ∈ [0, π]`; this returns
`1 - cos θ · |cos θ| ∈ [0, 2]`, a strictly increasing reparameterization of
`θ`, computed without square roots: `dot · |dot| / (‖u‖² ‖v‖²)` equals
`cos θ · |cos θ|`.  Because the engine consumes angles only through `max`
and strict comparison, every decision it makes with `pseudoAngle` matches
the decision made with the true angle.  It also maps antipodal reversal
faithfully: `pseudoAngle (-u) v = 2 - pseudoAngle u v` mirrors
`angle (-u) v = π - angle u v`. -/
def pseudoAngle (u v : Pt) : ℚ :=
  let d := u.dot v
  let n := u.normSq * v.normSq
  if n = 0 then 0 else 1 - d * |d| / n

/-! ### Concrete inputs used by witnesses and counterexamples -/

/-- Four points whose hull edge from index 0 to index 1 has the collinear
interior point 2 on it and the off-line point 3 above it. -/
def wPts : List Pt := [⟨0, 0⟩, ⟨4, 0⟩, ⟨1, 0⟩, ⟨1, 1⟩]

/-- A convex quadrilateral with pairwise distinct edge lengths
(100, 49, 82, 37), so every max-heap pops its edges in the same order. -/
def wQuad : List Pt := [⟨0, 0⟩, ⟨10, 0⟩, ⟨10, 7⟩, ⟨1, 6⟩]

/-! ## Segment intersection lemmas -/

/-- The source computes `u_denom` by the same expression as `t_denom`. -/
theorem uDenom_eq_tDenom (e1 e2 : Edge) : uDenom e1 e2 = tDenom e1 e2 := rfl

/-- The division-free test `0 ≤ n·d ∧ |n| ≤ |d|` is exactly `n/d ∈ [0, 1]`
when `d ≠ 0` (the "Equivalent to … But faster!" comment in the source). -/
theorem frac_unit_iff {n d : ℚ} (hd : d ≠ 0) :
    (0 ≤ n * d ∧ |n| ≤ |d|) ↔ (0 ≤ n / d ∧ n / d ≤ 1) := by
  rcases lt_or_gt_of_ne hd with hneg | hpos
  · constructor
    · rintro ⟨h1, h2⟩
      have hn : n ≤ 0 := by
        by_contra hc
        push_neg at hc
        nlinarith
      rw [abs_of_nonpos hn, abs_of_neg hneg] at h2
      have hrw : n / d = (-n) / (-d) := (neg_div_neg_eq n d).symm
      constructor
      · rw [hrw]; exact div_nonneg (by linarith) (by linarith)
      · rw [hrw]; exact (div_le_one (by linarith)).mpr (by linarith)
    · rintro ⟨h1, h2⟩
      have hrw : n / d = (-n) / (-d) := (neg_div_neg_eq n d).symm
      rw [hrw] at h1 h2
      have hdpos : (0 : ℚ) < -d := by linarith
      have hn : 0 ≤ -n := by
        have h3 := mul_nonneg h1 hdpos.le
        rwa [div_mul_cancel₀ _ hdpos.ne'] at h3
      have hnd : -n ≤ -d := (div_le_one hdpos).mp h2
      constructor
      · nlinarith
      · rw [abs_of_nonpos (by linarith), abs_of_neg hneg]; linarith
  · constructor
    · rintro ⟨h1, h2⟩
      have hn : 0 ≤ n := by
        by_contra hc
        push_neg at hc
        nlinarith
      rw [abs_of_nonneg hn, abs_of_pos hpos] at h2
      exact ⟨div_nonneg hn hpos.le, (div_le_one hpos).mpr h2⟩
    · rintro ⟨h1, h2⟩
      have hn : 0 ≤ n := by
        have h3 := mul_nonneg h1 hpos.le
        rwa [div_mul_cancel₀ _ hpos.ne'] at h3
      refine ⟨mul_nonneg hn hpos.le, ?_⟩
      rw [abs_of_nonneg hn, abs_of_pos hpos]
      exact (div_le_one hpos).mp h2

/-- C4: `edges_intersect` returns true for identical `(i, j)` index pairs,
and false for edges connected through `e1.i = e2.j` or `e2.i = e1.j`; in
particular collinear-adjacent edges sharing one endpoint never intersect
(witnessed below on two collinear edges). -/
theorem claim_C4 (e1 e2 : Edge) :
    (e1.i = e2.i → e1.j = e2.j → edges_intersect e1 e2 = true) ∧
    (¬(e1.i = e2.i ∧ e1.j = e2.j) → (e1.i = e2.j ∨ e2.i = e1.j) →
      edges_intersect e1 e2 = false) := by
  constructor
  · intro h1 h2
    unfold edges_intersect
    rw [if_pos ⟨h1, h2⟩]
  · intro h1 h2
    unfold edges_intersect
    rw [if_neg h1, if_pos h2]

/-- Witness for C4 at concrete edges, including the worked example of two
connected collinear-adjacent edges on the segment `x = 0`. -/
theorem claim_C4_witness :
    edges_intersect (mkEdge [⟨0, 0⟩, ⟨0, 1⟩, ⟨0, 2⟩] 0 1)
        (mkEdge [⟨0, 0⟩, ⟨0, 1⟩, ⟨0, 2⟩] 0 1) = true ∧
    edges_intersect (mkEdge [⟨0, 0⟩, ⟨0, 1⟩, ⟨0, 2⟩] 0 1)
        (mkEdge [⟨0, 0⟩, ⟨0, 1⟩, ⟨0, 2⟩] 1 2) = false :=
  ⟨(claim_C4 _ _).1 rfl rfl, (claim_C4 _ _).2 (by decide) (by decide)⟩

/-- C5: for edges neither identical nor endpoint-connected, the test is true
iff both parametric scalars `t = tNum/tDenom` and `u = uNum/uDenom` lie in
`[0, 1]`; a zero denominator makes the right side false, so the test then
returns false, and the division-free implementation never divides. -/
theorem claim_C5 (e1 e2 : Edge) (hid : ¬(e1.i = e2.i ∧ e1.j = e2.j))
    (hconn : ¬(e1.i = e2.j ∨ e2.i = e1.j)) :
    edges_intersect e1 e2 = true ↔
      (tDenom e1 e2 ≠ 0 ∧
        0 ≤ tNum e1 e2 / tDenom e1 e2 ∧ tNum e1 e2 / tDenom e1 e2 ≤ 1 ∧
        0 ≤ uNum e1 e2 / uDenom e1 e2 ∧ uNum e1 e2 / uDenom e1 e2 ≤ 1) := by
  unfold edges_intersect
  rw [if_neg hid, if_neg hconn, decide_eq_true_eq, uDenom_eq_tDenom]
  constructor
  · rintro ⟨h1, h2, h3, _, h5, h6⟩
    have ht := (frac_unit_iff h1).mp ⟨h2, h3⟩
    have hu := (frac_unit_iff h1).mp ⟨h5, h6⟩
    exact ⟨h1, ht.1, ht.2, hu.1, hu.2⟩
  · rintro ⟨h1, h2, h3, h4, h5⟩
    have ht := (frac_unit_iff h1).mpr ⟨h2, h3⟩
    have hu := (frac_unit_iff h1).mpr ⟨h4, h5⟩
    exact ⟨h1, ht.1, ht.2, h1, hu.1, hu.2⟩

/-- Witness for C5: the diagonals of a square properly cross. -/
theorem claim_C5_witness :
    edges_intersect (mkEdge [⟨0, 0⟩, ⟨2, 2⟩, ⟨0, 2⟩, ⟨2, 0⟩] 0 1)
      (mkEdge [⟨0, 0⟩, ⟨2, 2⟩, ⟨0, 2⟩, ⟨2, 0⟩] 2 3) = true :=
  (claim_C5 _ _ (by decide) (by decide)).mpr (by with_unfolding_all decide)

/-- C10: `edges_intersect` is symmetric (exact arithmetic). -/
theorem claim_C10 (e1 e2 : Edge) : edges_intersect e1 e2 = edges_intersect e2 e1 := by
  unfold edges_intersect
  by_cases h1 : e1.i = e2.i ∧ e1.j = e2.j
  · rw [if_pos h1, if_pos ⟨h1.1.symm, h1.2.symm⟩]
  · have h1s : ¬(e2.i = e1.i ∧ e2.j = e1.j) := fun h => h1 ⟨h.1.symm, h.2.symm⟩
    rw [if_neg h1, if_neg h1s]
    by_cases h2 : e1.i = e2.j ∨ e2.i = e1.j
    · rw [if_pos h2, if_pos h2.symm]
    · have h2s : ¬(e2.i = e1.j ∨ e1.i = e2.j) := fun h => h2 h.symm
      rw [if_neg h2, if_neg h2s]
      have ht : tNum e2 e1 = -(uNum e1 e2) := by unfold tNum uNum; ring
      have hu : uNum e2 e1 = -(tNum e1 e2) := by unfold uNum tNum; ring
      have hd : tDenom e2 e1 = -(tDenom e1 e2) := by unfold tDenom; ring
      rw [decide_eq_decide, uDenom_eq_tDenom e1 e2, uDenom_eq_tDenom e2 e1, ht, hu, hd]
      simp only [neg_mul_neg, abs_neg, neg_ne_zero]
      tauto

/-! ## Candidate scan lemmas -/

/-- `bestStep` never turns a `some` accumulator into `none`. -/
theorem bestStep_none (angle : Pt → Pt → ℚ) (edge : Edge) (t : ℕ) (p : Pt)
    (acc : Option (ℕ × Pt × ℚ)) (h : bestStep angle edge t p acc = none) : acc = none := by
  rcases acc with _ | b
  · rfl
  · unfold bestStep at h
    split at h
    · exact h
    · split at h
      all_goals first
        | (split at h <;> simp at h)
        | simp at h

/-- If the whole scan ends with `none`, it started with `none`. -/
theorem bestAux_none (angle : Pt → Pt → ℚ) (edge : Edge) :
    ∀ (ps : List Pt) (t : ℕ) (acc : Option (ℕ × Pt × ℚ)),
      bestAux angle edge t ps acc = none → acc = none := by
  intro ps
  induction ps with
  | nil => intro t acc h; exact h
  | cons p ps ih =>
    intro t acc h
    rw [bestAux] at h
    exact bestStep_none angle edge t p acc (ih (t + 1) _ h)

/-- A scanned point whose index is not an endpoint of the edge makes the
accumulator `some`. -/
theorem bestStep_elig (angle : Pt → Pt → ℚ) (edge : Edge) (t : ℕ) (p : Pt)
    (acc : Option (ℕ × Pt × ℚ)) (hi : t ≠ edge.i) (hj : t ≠ edge.j) :
    bestStep angle edge t p acc ≠ none := by
  rcases acc with _ | b
  · unfold bestStep
    rw [if_neg (by tauto : ¬(t = edge.i ∨ t = edge.j))]
    simp
  · unfold bestStep
    rw [if_neg (by tauto : ¬(t = edge.i ∨ t = edge.j))]
    split
    all_goals first
      | (split <;> simp)
      | simp

/-- If some eligible index lies in the scanned range, the scan returns
`some`. -/
theorem bestAux_reaches (angle : Pt → Pt → ℚ) (edge : Edge) :
    ∀ (ps : List Pt) (t : ℕ) (acc : Option (ℕ × Pt × ℚ)) (k : ℕ),
      t ≤ k → k < t + ps.length → k ≠ edge.i → k ≠ edge.j →
      bestAux angle edge t ps acc ≠ none := by
  intro ps
  induction ps with
  | nil =>
    intro t acc k h1 h2 _ _ _
    simp only [List.length_nil, Nat.add_zero] at h2
    omega
  | cons p ps ih =>
    intro t acc k h1 h2 h3 h4
    rw [bestAux]
    rcases Nat.eq_or_lt_of_le h1 with rfl | hlt
    · intro hc
      exact bestStep_elig angle edge t p acc h3 h4 (bestAux_none angle edge _ _ _ hc)
    · exact ih (t + 1) _ k hlt (by simp only [List.length_cons] at h2; omega) h3 h4

/-- Full characterization of the candidate scan, by induction along the
suffix being scanned: the result is an eligible in-bounds index carrying its
own point and score, its score is minimal among all eligible indices, and
every eligible index before it scores strictly worse (first-wins-ties). -/
theorem bestAux_spec (angle : Pt → Pt → ℚ) (edge : Edge) (pts : List Pt) :
    ∀ (ps : List Pt) (t : ℕ) (acc : Option (ℕ × Pt × ℚ)),
      pts.drop t = ps →
      (∀ ci cp ca, acc = some (ci, cp, ca) →
        ci < t ∧ ci < pts.length ∧ ci ≠ edge.i ∧ ci ≠ edge.j ∧
        pts.getD ci default = cp ∧ ca = splitScore angle edge cp ∧
        (∀ k, k < t → k ≠ edge.i → k ≠ edge.j →
          ca ≤ splitScore angle edge (pts.getD k default)) ∧
        (∀ k, k < ci → k ≠ edge.i → k ≠ edge.j →
          ca < splitScore angle edge (pts.getD k default))) →
      (acc = none → ∀ k, k < t → k ≠ edge.i → k ≠ edge.j → False) →
      ∀ bi bp ba, bestAux angle edge t ps acc = some (bi, bp, ba) →
        bi < pts.length ∧ bi ≠ edge.i ∧ bi ≠ edge.j ∧
        pts.getD bi default = bp ∧ ba = splitScore angle edge bp ∧
        (∀ k, k < pts.length → k ≠ edge.i → k ≠ edge.j →
          ba ≤ splitScore angle edge (pts.getD k default)) ∧
        (∀ k, k < bi → k ≠ edge.i → k ≠ edge.j →
          ba < splitScore angle edge (pts.getD k default)) := by
  intro ps
  induction ps with
  | nil =>
    intro t acc hdrop hsome _ bi bp ba hrun
    have hle : pts.length ≤ t := by
      have hl := congrArg List.length hdrop
      simp only [List.length_drop, List.length_nil] at hl
      omega
    obtain ⟨f1, f2, f3, f4, f5, f6, f7, f8⟩ := hsome bi bp ba hrun
    exact ⟨f2, f3, f4, f5, f6, fun k hk => f7 k (by omega), f8⟩
  | cons p ps ih =>
    intro t acc hdrop hsome hnone bi bp ba hrun
    have hlen : t < pts.length := by
      have hl := congrArg List.length hdrop
      simp only [List.length_drop, List.length_cons] at hl
      omega
    have hget : pts.getD t default = p := by
      have h0 := congrArg (fun l => List.getD l 0 (default : Pt)) hdrop
      simpa [List.getD_eq_getElem?_getD, List.getElem?_drop] using h0
    have hdrop2 : pts.drop (t + 1) = ps := by
      have h0 := congrArg List.tail hdrop
      simpa [List.tail_drop] using h0
    rw [bestAux] at hrun
    by_cases helig : t = edge.i ∨ t = edge.j
    · refine ih (t + 1) (bestStep angle edge t p acc) hdrop2 ?_ ?_ bi bp ba hrun
      · intro ci cp ca hstep
        rw [show bestStep angle edge t p acc = acc by unfold bestStep; rw [if_pos helig]]
          at hstep
        obtain ⟨f1, f2, f3, f4, f5, f6, f7, f8⟩ := hsome ci cp ca hstep
        refine ⟨by omega, f2, f3, f4, f5, f6, ?_, f8⟩
        intro k hk hki hkj
        rcases Nat.lt_succ_iff_lt_or_eq.mp hk with hk2 | rfl
        · exact f7 k hk2 hki hkj
        · rcases helig with he | he
          · exact absurd he hki
          · exact absurd he hkj
      · intro hstep k hk hki hkj
        rw [show bestStep angle edge t p acc = acc by unfold bestStep; rw [if_pos helig]]
          at hstep
        rcases Nat.lt_succ_iff_lt_or_eq.mp hk with hk2 | rfl
        · exact hnone hstep k hk2 hki hkj
        · rcases helig with he | he
          · exact absurd he hki
          · exact absurd he hkj
    · have hti : t ≠ edge.i := fun h => helig (Or.inl h)
      have htj : t ≠ edge.j := fun h => helig (Or.inr h)
      refine ih (t + 1) (bestStep angle edge t p acc) hdrop2 ?_ ?_ bi bp ba hrun
      · intro ci cp ca hstep
        rcases acc with _ | ⟨⟨ci0, cp0, ca0⟩⟩
        · rw [show bestStep angle edge t p none = some (t, p, splitScore angle edge p) by
              unfold bestStep; rw [if_neg helig]] at hstep
          simp only [Option.some.injEq, Prod.mk.injEq] at hstep
          obtain ⟨rfl, rfl, rfl⟩ := hstep
          refine ⟨by omega, hlen, hti, htj, hget, rfl, ?_, ?_⟩
          · intro k hk hki hkj
            rcases Nat.lt_succ_iff_lt_or_eq.mp hk with hk2 | rfl
            · exact absurd (hnone rfl k hk2 hki hkj) not_false
            · rw [hget]
          · intro k hk hki hkj
            exact absurd (hnone rfl k hk hki hkj) not_false
        · obtain ⟨g1, g2, g3, g4, g5, g6, g7, g8⟩ := hsome ci0 cp0 ca0 rfl
          by_cases hcmp : ca0 > splitScore angle edge p
          · rw [show bestStep angle edge t p (some (ci0, cp0, ca0)) =
                  some (t, p, splitScore angle edge p) by
                unfold bestStep; rw [if_neg helig]; exact if_pos hcmp] at hstep
            simp only [Option.some.injEq, Prod.mk.injEq] at hstep
            obtain ⟨rfl, rfl, rfl⟩ := hstep
            refine ⟨by omega, hlen, hti, htj, hget, rfl, ?_, ?_⟩
            · intro k hk hki hkj
              rcases Nat.lt_succ_iff_lt_or_eq.mp hk with hk2 | rfl
              · exact (hcmp.trans_le (g7 k hk2 hki hkj)).le
              · rw [hget]
            · intro k hk hki hkj
              exact hcmp.trans_le (g7 k hk hki hkj)
          · rw [show bestStep angle edge t p (some (ci0, cp0, ca0)) =
                  some (ci0, cp0, ca0) by
                unfold bestStep; rw [if_neg helig]; exact if_neg hcmp] at hstep
            simp only [Option.some.injEq, Prod.mk.injEq] at hstep
            obtain ⟨rfl, rfl, rfl⟩ := hstep
            refine ⟨by omega, g2, g3, g4, g5, g6, ?_, g8⟩
            intro k hk hki hkj
            rcases Nat.lt_succ_iff_lt_or_eq.mp hk with hk2 | rfl
            · exact g7 k hk2 hki hkj
            · rw [hget]
              exact not_lt.mp hcmp
      · intro hstep
        exact absurd hstep (bestStep_elig angle edge t p acc hti htj)

/-- C3 (amended): the candidate scan visits every point whose index differs
from the edge's endpoints, scores each as the larger of the angle between
the edge direction and the vector from `e.a` to `p` and the angle between
the edge direction (NOT reversed — this is the amendment) and the vector
from `p` to `e.b`, and picks the minimum score with first-wins-ties
(replacement only on strict less-than).  See `claim_C3_counterexample` for
the claim's original "reversed direction" wording. -/
theorem claim_C3 (angle : Pt → Pt → ℚ) (pts : List Pt) (edge : Edge)
    (bi : ℕ) (bp : Pt) (ba : ℚ)
    (h : bestCandidate angle pts edge = some (bi, bp, ba)) :
    bi < pts.length ∧ bi ≠ edge.i ∧ bi ≠ edge.j ∧
    pts.getD bi default = bp ∧ ba = splitScore angle edge bp ∧
    (∀ k, k < pts.length → k ≠ edge.i → k ≠ edge.j →
      ba ≤ splitScore angle edge (pts.getD k default)) ∧
    (∀ k, k < bi → k ≠ edge.i → k ≠ edge.j →
      ba < splitScore angle edge (pts.getD k default)) :=
  bestAux_spec angle edge pts pts 0 none rfl (by simp)
    (fun _ k hk _ _ => absurd hk (Nat.not_lt_zero k)) bi bp ba h

/-- Counterexample to C3 as stated: on `wPts` with the edge from index 0 to
index 1, the code picks index 2 (the collinear point on the edge, scoring
the minимum 0), but under the claim's "reversed direction" scoring index 3
scores strictly less than index 2, so the claim's argmin cannot be the
chosen point. -/
theorem claim_C3_counterexample :
    bestCandidate pseudoAngle wPts (mkEdge wPts 0 1) = some (2, ⟨1, 0⟩, 0) ∧
    claimScore pseudoAngle (mkEdge wPts 0 1) (wPts.getD 3 default) <
      claimScore pseudoAngle (mkEdge wPts 0 1) (wPts.getD 2 default) := by
  with_unfolding_all decide

/-- Witness for C3 at a concrete input: the winner's score bounds point 3's
score from below. -/
theorem claim_C3_witness :
    (0 : ℚ) ≤ splitScore pseudoAngle (mkEdge wPts 0 1) (wPts.getD 3 default) :=
  (claim_C3 pseudoAngle wPts (mkEdge wPts 0 1) 2 ⟨1, 0⟩ 0
      (by with_unfolding_all decide)).2.2.2.2.2.1 3 (by decide) (by decide) (by decide)

/-- C9: with more than 3 points in the cloud, the candidate scan always
finds some point, so the `expect` panic branch (modelled as `none`, and as
`StepRes.panicked` in the loop body) is unreachable. -/
theorem claim_C9 (angle : Pt → Pt → ℚ) (pts : List Pt) (edge : Edge)
    (csq : Conc) (rest : List Edge) (boundary : Finset ℕ) (hull : List Edge)
    (h : 3 < pts.length) :
    bestCandidate angle pts edge ≠ none ∧
    refineStep angle pts csq edge rest boundary hull ≠ .panicked := by
  have hex : ∃ k, k < 3 ∧ k ≠ edge.i ∧ k ≠ edge.j := by
    by_cases h0 : 0 = edge.i ∨ 0 = edge.j
    · by_cases h1 : 1 = edge.i ∨ 1 = edge.j
      · rcases h0 with h0 | h0 <;> rcases h1 with h1 | h1 <;>
          exact ⟨2, by omega, by omega, by omega⟩
      · rw [not_or] at h1
        exact ⟨1, by omega, fun hc => h1.1 hc, fun hc => h1.2 hc⟩
    · rw [not_or] at h0
      exact ⟨0, by omega, fun hc => h0.1 hc, fun hc => h0.2 hc⟩
  obtain ⟨k, hk, hki, hkj⟩ := hex
  have hbc : bestCandidate angle pts edge ≠ none :=
    bestAux_reaches angle edge pts 0 none k (Nat.zero_le k) (by omega) hki hkj
  refine ⟨hbc, ?_⟩
  rcases hopt : bestCandidate angle pts edge with _ | ⟨⟨bi, bp, ba⟩⟩
  · exact absurd hopt hbc
  · unfold refineStep
    rw [hopt]
    split
    · split
      · rename_i heq
        exact Option.noConfusion heq
      · split
        · simp
        · split <;> simp
    · simp

/-- Witness for C9 at a concrete 4-point cloud. -/
theorem claim_C9_witness :
    bestCandidate pseudoAngle wPts (mkEdge wPts 0 1) ≠ none ∧
    refineStep pseudoAngle wPts (Conc.fin 0) (mkEdge wPts 0 1) [] {0, 1} [] ≠
      .panicked :=
  claim_C9 pseudoAngle wPts (mkEdge wPts 0 1) (Conc.fin 0) [] {0, 1} [] (by decide)

/-! ## Heap and loop-body lemmas -/

/-- `popMax` returns `none` only on the empty heap. -/
theorem eq_nil_of_popMax (l : List Edge) (h : popMax l = none) : l = [] := by
  cases l with
  | nil => rfl
  | cons a es =>
    exfalso
    rcases h2 : popMax es with _ | ⟨m, r⟩ <;> simp only [popMax, h2] at h
    · exact Option.noConfusion h
    · split at h <;> exact Option.noConfusion h

/-- The popped element together with the remainder is a permutation of the
heap. -/
theorem popMax_perm : ∀ (l : List Edge) (e : Edge) (rest : List Edge),
    popMax l = some (e, rest) → l.Perm (e :: rest) := by
  intro l
  induction l with
  | nil => intro e rest h; exact Option.noConfusion h
  | cons a es ih =>
    intro e rest h
    rcases h2 : popMax es with _ | ⟨m, r⟩ <;> simp only [popMax, h2] at h
    · simp only [Option.some.injEq, Prod.mk.injEq] at h
      rw [← h.1, ← h.2, eq_nil_of_popMax es h2]
    · split at h
      · simp only [Option.some.injEq, Prod.mk.injEq] at h
        rw [← h.1, ← h.2]
        exact ((ih m r h2).cons a).trans (List.Perm.swap m a r)
      · simp only [Option.some.injEq, Prod.mk.injEq] at h
        rw [← h.1, ← h.2]

/-- Popping shrinks the heap length by exactly one. -/
theorem popMax_length (l : List Edge) (e : Edge) (rest : List Edge)
    (h : popMax l = some (e, rest)) : l.length = rest.length + 1 := by
  simpa using (popMax_perm l e rest h).length_eq

/-- The popped edge is a longest pending edge. -/
theorem popMax_isMax : ∀ (l : List Edge) (e : Edge) (rest : List Edge),
    popMax l = some (e, rest) → ∀ d ∈ l, d.norm_squared ≤ e.norm_squared := by
  intro l
  induction l with
  | nil => intro e rest h; exact Option.noConfusion h
  | cons a es ih =>
    intro e rest h d hd
    rcases h2 : popMax es with _ | ⟨m, r⟩ <;> simp only [popMax, h2] at h
    · simp only [Option.some.injEq, Prod.mk.injEq] at h
      rw [← h.1]
      rcases List.mem_cons.mp hd with rfl | hd2
      · exact le_refl _
      · rw [eq_nil_of_popMax es h2] at hd2
        cases hd2
    · split at h
      · rename_i hlt
        simp only [Option.some.injEq, Prod.mk.injEq] at h
        rw [← h.1]
        rcases List.mem_cons.mp hd with rfl | hd2
        · exact hlt.le
        · exact ih m r h2 d hd2
      · rename_i hlt
        simp only [Option.some.injEq, Prod.mk.injEq] at h
        rw [← h.1]
        rcases List.mem_cons.mp hd with rfl | hd2
        · exact le_refl _
        · exact le_trans (ih m r h2 d hd2) (not_lt.mp hlt)

/-- Inversion: an `accepted` result of `refineStep` always carries exactly
the popped remainder, the unchanged boundary, and the hull extended by the
popped edge. -/
theorem refineStep_accepted {angle : Pt → Pt → ℚ} {pts : List Pt} {csq : Conc}
    {edge : Edge} {rest : List Edge} {boundary : Finset ℕ} {hull h2 : List Edge}
    {b2 : Finset ℕ} {hl2 : List Edge}
    (h : refineStep angle pts csq edge rest boundary hull = .accepted h2 b2 hl2) :
    h2 = rest ∧ b2 = boundary ∧ hl2 = hull ++ [edge] := by
  unfold refineStep at h
  split at h
  · split at h
    · exact StepRes.noConfusion h
    · split at h
      · injection h with ha hb hc
        exact ⟨ha.symm, hb.symm, hc.symm⟩
      · split at h
        · exact StepRes.noConfusion h
        · injection h with ha hb hc
          exact ⟨ha.symm, hb.symm, hc.symm⟩
  · injection h with ha hb hc
    exact ⟨ha.symm, hb.symm, hc.symm⟩

/-- Inversion: a `splitted` result names a found candidate outside the
boundary, a passed length check, a passed intersection sweep, and the new
state pushed by the commit. -/
theorem refineStep_splitted {angle : Pt → Pt → ℚ} {pts : List Pt} {csq : Conc}
    {edge : Edge} {rest : List Edge} {boundary : Finset ℕ} {hull h2 : List Edge}
    {b2 : Finset ℕ} {hl2 : List Edge}
    (h : refineStep angle pts csq edge rest boundary hull = .splitted h2 b2 hl2) :
    ∃ bi bp ba, bestCandidate angle pts edge = some (bi, bp, ba) ∧
      gtConc edge.norm_squared csq = true ∧ bi ∉ boundary ∧
      ((hull ++ rest).all (fun d => !(edges_intersect d (edge.split_by bp bi).1
        || edges_intersect d (edge.split_by bp bi).2))) = true ∧
      h2 = (edge.split_by bp bi).1 :: (edge.split_by bp bi).2 :: rest ∧
      b2 = insert bi boundary ∧ hl2 = hull := by
  unfold refineStep at h
  split at h
  · rename_i hgt
    split at h
    · exact StepRes.noConfusion h
    · rename_i bi bp ba heq
      split at h
      · exact StepRes.noConfusion h
      · rename_i hmem
        split at h
        · rename_i hall
          injection h with ha hb hc
          exact ⟨bi, bp, ba, heq, hgt, hmem, hall, ha.symm, hb.symm, hc.symm⟩
        · exact StepRes.noConfusion h
  · exact StepRes.noConfusion h

/-- C2: the popped edge is a longest pending edge, and one refinement
iteration accepts it into the finalized collection iff its squared length
does not exceed the squared concavity, or its best candidate is already a
boundary point, or one of the two tentative child edges intersects some
finalized or still-pending edge; otherwise the children are pushed, the
candidate joins the boundary set, and the edge is not finalized. -/
theorem claim_C2 (angle : Pt → Pt → ℚ) (pts : List Pt) (conc : Conc)
    (heap rest : List Edge) (edge : Edge) (boundary : Finset ℕ) (hull : List Edge)
    (bi : ℕ) (bp : Pt) (ba : ℚ)
    (hpop : popMax heap = some (edge, rest))
    (hbc : bestCandidate angle pts edge = some (bi, bp, ba)) :
    (∀ d ∈ heap, d.norm_squared ≤ edge.norm_squared) ∧
    (refineStep angle pts conc.powi2 edge rest boundary hull =
        .accepted rest boundary (hull ++ [edge]) ↔
      (gtConc edge.norm_squared conc.powi2 = false ∨ bi ∈ boundary ∨
        ∃ d ∈ hull ++ rest, (edges_intersect d (edge.split_by bp bi).1 = true ∨
          edges_intersect d (edge.split_by bp bi).2 = true))) ∧
    ((gtConc edge.norm_squared conc.powi2 = true ∧ bi ∉ boundary ∧
      ∀ d ∈ hull ++ rest, edges_intersect d (edge.split_by bp bi).1 = false ∧
        edges_intersect d (edge.split_by bp bi).2 = false) →
      refineStep angle pts conc.powi2 edge rest boundary hull =
        .splitted ((edge.split_by bp bi).1 :: (edge.split_by bp bi).2 :: rest)
          (insert bi boundary) hull) := by
  refine ⟨popMax_isMax heap edge rest hpop, ⟨?_, ?_⟩, ?_⟩
  · intro hacc
    by_cases hgt : gtConc edge.norm_squared conc.powi2 = true
    · by_cases hmem : bi ∈ boundary
      · exact Or.inr (Or.inl hmem)
      · by_cases hall : ((hull ++ rest).all
            (fun d => !(edges_intersect d (edge.split_by bp bi).1
              || edges_intersect d (edge.split_by bp bi).2))) = true
        · exfalso
          have hsp : refineStep angle pts conc.powi2 edge rest boundary hull =
              .splitted ((edge.split_by bp bi).1 :: (edge.split_by bp bi).2 :: rest)
                (insert bi boundary) hull := by
            unfold refineStep
            rw [if_pos hgt, hbc]
            split
            · rename_i heq
              exact Option.noConfusion heq
            · rename_i bi2 bp2 ba2 heq
              simp only [Option.some.injEq, Prod.mk.injEq] at heq
              obtain ⟨rfl, rfl, rfl⟩ := heq
              rw [if_neg hmem, if_pos hall]
          rw [hsp] at hacc
          exact StepRes.noConfusion hacc
        · refine Or.inr (Or.inr ?_)
          have hall2 : ((hull ++ rest).all
              (fun d => !(edges_intersect d (edge.split_by bp bi).1
                || edges_intersect d (edge.split_by bp bi).2))) = false := by
            cases hb2 : ((hull ++ rest).all
                (fun d => !(edges_intersect d (edge.split_by bp bi).1
                  || edges_intersect d (edge.split_by bp bi).2)))
            · rfl
            · exact absurd hb2 hall
          rw [List.all_eq_false] at hall2
          obtain ⟨d, hd, hdf⟩ := hall2
          refine ⟨d, hd, ?_⟩
          cases hA : edges_intersect d (edge.split_by bp bi).1
          · cases hB : edges_intersect d (edge.split_by bp bi).2
            · exact absurd (by simp [hA, hB]) hdf
            · exact Or.inr rfl
          · exact Or.inl rfl
    · refine Or.inl ?_
      cases hb2 : gtConc edge.norm_squared conc.powi2
      · rfl
      · exact absurd hb2 hgt
  · intro hdisj
    rcases hdisj with hlt | hmem | ⟨d, hd, hint⟩
    · unfold refineStep
      rw [hlt]
      simp
    · unfold refineStep
      split
      · rw [hbc]
        split
        · rename_i heq
          exact Option.noConfusion heq
        · rename_i bi2 bp2 ba2 heq
          simp only [Option.some.injEq, Prod.mk.injEq] at heq
          obtain ⟨rfl, rfl, rfl⟩ := heq
          rw [if_pos hmem]
      · rfl
    · have hall : ((hull ++ rest).all
          (fun d2 => !(edges_intersect d2 (edge.split_by bp bi).1
            || edges_intersect d2 (edge.split_by bp bi).2))) = false := by
        rw [List.all_eq_false]
        refine ⟨d, hd, ?_⟩
        rcases hint with h1 | h1 <;> simp [h1]
      unfold refineStep
      split
      · rw [hbc]
        split
        · rename_i heq
          exact Option.noConfusion heq
        · rename_i bi2 bp2 ba2 heq
          simp only [Option.some.injEq, Prod.mk.injEq] at heq
          obtain ⟨rfl, rfl, rfl⟩ := heq
          split
          · rfl
          · rename_i hmem2
            rw [hall]
            simp
      · rfl
  · rintro ⟨hgt, hmem, hforall⟩
    have hall : ((hull ++ rest).all
        (fun d => !(edges_intersect d (edge.split_by bp bi).1
          || edges_intersect d (edge.split_by bp bi).2))) = true := by
      rw [List.all_eq_true]
      intro d hd
      have hfd := hforall d hd
      simp [hfd.1, hfd.2]
    unfold refineStep
    rw [if_pos hgt, hbc]
    split
    · rename_i heq
      exact Option.noConfusion heq
    · rename_i bi2 bp2 ba2 heq
      simp only [Option.some.injEq, Prod.mk.injEq] at heq
      obtain ⟨rfl, rfl, rfl⟩ := heq
      rw [if_neg hmem, if_pos hall]

/-- Witness for C2: a concrete committed split on `wPts`. -/
theorem claim_C2_witness :
    refineStep pseudoAngle wPts (Conc.fin 0).powi2 (mkEdge wPts 0 1) [] {0, 1} [] =
      .splitted (((mkEdge wPts 0 1).split_by ⟨1, 0⟩ 2).1 ::
        ((mkEdge wPts 0 1).split_by ⟨1, 0⟩ 2).2 :: []) (insert 2 {0, 1}) [] :=
  (claim_C2 pseudoAngle wPts (Conc.fin 0) [mkEdge wPts 0 1] [] (mkEdge wPts 0 1)
      {0, 1} [] 2 ⟨1, 0⟩ 0 rfl (by with_unfolding_all decide)).2.2
    ⟨by with_unfolding_all decide, by decide,
      fun d hd => absurd hd (List.not_mem_nil d)⟩

/-! ## Termination of the refinement loop -/

/-- The candidate returned by the scan indexes into the point cloud. -/
theorem bestCandidate_lt (angle : Pt → Pt → ℚ) (pts : List Pt) (edge : Edge)
    (bi : ℕ) (bp : Pt) (ba : ℚ)
    (h : bestCandidate angle pts edge = some (bi, bp, ba)) : bi < pts.length :=
  (bestAux_spec angle edge pts pts 0 none rfl (by simp)
    (fun _ k hk _ _ => absurd hk (Nat.not_lt_zero k)) bi bp ba h).1

/-- C7: the refinement loop terminates on every input.  Formally: each
iteration either pops an edge without pushing (heap shrinks), or commits a
split that consumes one uncommitted in-range point index; the measure
`heap.length + 3 · #(range |pts| \\ boundary)` strictly decreases, so with at
least that much fuel the loop never reaches the `fuelout` marker (which
stands in for nontermination in this embedding). -/
theorem claim_C7 (angle : Pt → Pt → ℚ) (pts : List Pt) (csq : Conc) :
    ∀ (fuel : ℕ) (heap : List Edge) (boundary : Finset ℕ) (hull : List Edge),
      heap.length + 3 * ((Finset.range pts.length) \ boundary).card ≤ fuel →
      loop angle pts csq fuel heap boundary hull ≠ .fuelout := by
  intro fuel
  induction fuel with
  | zero =>
    intro heap boundary hull hle
    have hheap : heap = [] := by
      cases heap with
      | nil => rfl
      | cons a es =>
        exfalso
        simp only [List.length_cons] at hle
        omega
    subst hheap
    simp [loop, popMax]
  | succ fuel ih =>
    intro heap boundary hull hle
    rcases hpop : popMax heap with _ | ⟨edge, rest⟩
    · simp [loop, hpop]
    · have hlen := popMax_length heap edge rest hpop
      cases hstep : refineStep angle pts csq edge rest boundary hull with
      | accepted h2 b2 hl2 =>
        obtain ⟨he1, he2, he3⟩ := refineStep_accepted hstep
        have heq2 : loop angle pts csq (fuel + 1) heap boundary hull =
            loop angle pts csq fuel h2 b2 hl2 := by
          simp only [loop, hpop, hstep]
        rw [heq2]
        apply ih
        rw [he1, he2]
        omega
      | splitted h2 b2 hl2 =>
        obtain ⟨bi, bp, ba, hbc, hgt, hmem, hall, he1, he2, he3⟩ :=
          refineStep_splitted hstep
        have hbi : bi < pts.length := bestCandidate_lt angle pts edge bi bp ba hbc
        have hmemd : bi ∈ Finset.range pts.length \ boundary :=
          Finset.mem_sdiff.mpr ⟨Finset.mem_range.mpr hbi, hmem⟩
        have hpos : 0 < ((Finset.range pts.length) \ boundary).card :=
          Finset.card_pos.mpr ⟨bi, hmemd⟩
        have hcard : ((Finset.range pts.length) \ insert bi boundary).card + 1 =
            ((Finset.range pts.length) \ boundary).card := by
          have hset : (Finset.range pts.length) \ insert bi boundary =
              ((Finset.range pts.length) \ boundary).erase bi := by
            ext k
            simp only [Finset.mem_sdiff, Finset.mem_erase, Finset.mem_insert,
              Finset.mem_range]
            tauto
          rw [hset, Finset.card_erase_of_mem hmemd]
          omega
        have heq2 : loop angle pts csq (fuel + 1) heap boundary hull =
            loop angle pts csq fuel h2 b2 hl2 := by
          simp only [loop, hpop, hstep]
        rw [heq2]
        apply ih
        rw [he1, he2]
        simp only [List.length_cons]
        omega
      | panicked =>
        have heq2 : loop angle pts csq (fuel + 1) heap boundary hull = .panicked := by
          simp only [loop, hpop, hstep]
        rw [heq2]
        simp

/-- Witness for C7 at a concrete state with enough fuel. -/
theorem claim_C7_witness :
    loop pseudoAngle wPts (Conc.fin 0).powi2 7 [mkEdge wPts 0 1] {0, 1} [] ≠
      .fuelout :=
  claim_C7 pseudoAngle wPts (Conc.fin 0).powi2 7 [mkEdge wPts 0 1] {0, 1} []
    (by decide)

/-! ## Degenerate fast paths -/

/-- `mapMO` succeeds pointwise. -/
theorem mapMO_some {α β : Type} (f : α → Option β) (g : α → β) :
    ∀ (l : List α), (∀ a ∈ l, f a = some (g a)) → mapMO f l = some (l.map g) := by
  intro l
  induction l with
  | nil => intro _; rfl
  | cons a l ih =>
    intro h
    simp only [mapMO]
    rw [h a (List.mem_cons_self a l), ih (fun x hx => h x (List.mem_cons_of_mem a hx))]
    rfl

/-- In-bounds `get?` in terms of `getD`. -/
theorem get?_getD {α : Type} (d : α) :
    ∀ (l : List α) (n : ℕ), n < l.length → l.get? n = some (l.getD n d) := by
  intro l
  induction l with
  | nil => intro n h; simp at h
  | cons a l ih =>
    intro n h
    cases n with
    | zero => rfl
    | succ m => exact ih m (by simpa using h)

/-- C6: `concave_hull` returns the input unchanged for 0 or 1 points, both
points in input order for 2 points (given the provider contract of spec
section 4.1, that 0 to 2 points come back in unmodified order), and the
convex hull provider's own ordering, bypassing refinement, for 3 points —
for every concavity value. -/
theorem claim_C6 (angle : Pt → Pt → ℚ) (prov : List Pt → List ℕ)
    (pts : List Pt) (c : Conc) :
    (pts = [] → concave_hull angle prov pts c = some []) ∧
    (∀ p, pts = [p] → concave_hull angle prov pts c = some [(0, p)]) ∧
    (pts.length = 2 → prov pts = [0, 1] →
      concave_hull angle prov pts c =
        some [(0, pts.getD 0 default), (1, pts.getD 1 default)]) ∧
    (pts.length = 3 → (∀ id ∈ prov pts, id < 3) →
      concave_hull angle prov pts c =
        some ((prov pts).map (fun id => (id, pts.getD id default)))) := by
  refine ⟨?_, ?_, ?_, ?_⟩
  · rintro rfl
    rfl
  · rintro p rfl
    rfl
  · intro hlen hprov
    obtain ⟨p, q, rfl⟩ := List.length_eq_two.mp hlen
    unfold concave_hull
    rw [hprov]
    rfl
  · intro hlen hvalid
    obtain ⟨p, q, r, rfl⟩ := List.length_eq_three.mp hlen
    unfold concave_hull
    rw [if_neg (by simp : ¬([p, q, r].length ≤ 1))]
    unfold concave_hull_inner
    rw [if_pos (by simp : [p, q, r].length ≤ 3)]
    apply mapMO_some
    intro id hid
    rw [get?_getD default _ id (by simpa using hvalid id hid)]
    rfl

/-- Witness for C6: the two-point fast path at a concrete cloud and the
spec-contract provider. -/
theorem claim_C6_witness :
    concave_hull pseudoAngle (fun _ => [0, 1]) [⟨0, 0⟩, ⟨4, 0⟩] (Conc.fin 0) =
      some [(0, ⟨0, 0⟩), (1, ⟨4, 0⟩)] :=
  (claim_C6 pseudoAngle (fun _ => [0, 1]) [⟨0, 0⟩, ⟨4, 0⟩] (Conc.fin 0)).2.2.1
    rfl rfl

/-! ## Hull reconstruction: permutation lemmas -/

/-- Re-attaching a removed element is a permutation. -/
theorem cons_eraseIdx_perm {α : Type} :
    ∀ (l : List α) (k : ℕ) (x : α), l.get? k = some x →
      (x :: l.eraseIdx k).Perm l := by
  intro l
  induction l with
  | nil => intro k x h; exact Option.noConfusion h
  | cons a l ih =>
    intro k x h
    cases k with
    | zero =>
      injection h with h1
      subst h1
      exact List.Perm.refl _
    | succ m =>
      exact (List.Perm.swap a x _).trans ((ih m x h).cons a)

/-- Every cons list has a last element. -/
theorem getLast?_cons_some {α : Type} :
    ∀ (l2 : List α) (b : α), ∃ g, (b :: l2).getLast? = some g := by
  intro l2
  induction l2 with
  | nil => intro b; exact ⟨b, rfl⟩
  | cons c l3 ih => intro b; exact ih c

/-- `dropLast` through a cons with a nonempty tail. -/
theorem dropLast_cons_ne {α : Type} (a : α) (m : List α) (h : m ≠ []) :
    (a :: m).dropLast = a :: m.dropLast := by
  cases m with
  | nil => exact absurd rfl h
  | cons b l => rfl

/-- `swap_remove` deletes the indexed element up to reordering. -/
theorem swapRemove_perm {α : Type} :
    ∀ (l : List α) (k : ℕ), k < l.length → (swapRemove l k).Perm (l.eraseIdx k) := by
  intro l
  induction l with
  | nil => intro k h; simp at h
  | cons a m ih =>
    intro k h
    cases m with
    | nil =>
      have hk : k = 0 := by simp at h; omega
      subst hk
      exact List.Perm.refl _
    | cons b l2 =>
      obtain ⟨g, hg⟩ := getLast?_cons_some l2 b
      have hswap : ∀ k2, swapRemove (a :: b :: l2) k2 = ((a :: b :: l2).set k2 g).dropLast := by
        intro k2
        simp only [swapRemove]
        rw [show (a :: b :: l2).getLast? = some g from hg]
      have hgval : (b :: l2).getLast (by simp) = g := by
        have h3 := List.getLast?_eq_getLast (b :: l2) (by simp)
        rw [h3] at hg
        injection hg with h4
      cases k with
      | zero =>
        rw [hswap 0, List.set_cons_zero,
          dropLast_cons_ne g (b :: l2) (by simp)]
        have hfull : (b :: l2).dropLast ++ [g] = b :: l2 := by
          have h2 := List.dropLast_append_getLast (l := b :: l2) (by simp)
          rwa [hgval] at h2
        have hperm : (g :: (b :: l2).dropLast).Perm ((b :: l2).dropLast ++ [g]) :=
          (List.perm_append_singleton g _).symm
        rw [hfull] at hperm
        exact hperm
      | succ k2 =>
        rw [hswap (k2 + 1), List.set_cons_succ]
        have hset_ne : (b :: l2).set k2 g ≠ [] := by
          intro hc
          have h2 := congrArg List.length hc
          simp at h2
        rw [dropLast_cons_ne a _ hset_ne]
        apply List.Perm.cons
        have hsw2 : swapRemove (b :: l2) k2 = ((b :: l2).set k2 g).dropLast := by
          simp only [swapRemove]
          rw [hg]
        rw [← hsw2]
        exact ih k2 (by simp at h ⊢; omega)

/-- The walk of `sortLoop` emits exactly the `i`-fields of the consumed
edges (in some order): its output indices are a permutation of the
accumulator's indices followed by the current edge's and the vector's. -/
theorem sortLoop_perm :
    ∀ (fuel : ℕ) (curr : Edge) (vec : List Edge) (acc out : List (ℕ × Pt)),
      sortLoop fuel curr vec acc = some out →
      (out.map Prod.fst).Perm ((acc.map Prod.fst) ++ curr.i :: vec.map Edge.i) := by
  intro fuel
  induction fuel with
  | zero =>
    intro curr vec acc out h
    cases vec with
    | nil =>
      simp only [sortLoop] at h
      injection h with h1
      subst h1
      simp
    | cons e vec2 => exact Option.noConfusion h
  | succ fuel ih =>
    intro curr vec acc out h
    cases vec with
    | nil =>
      simp only [sortLoop] at h
      injection h with h1
      subst h1
      simp
    | cons e vec2 =>
      simp only [sortLoop] at h
      rcases hidx : List.findIdx? (fun d => d.i == curr.j) (e :: vec2) with _ | pos <;>
        rw [hidx] at h
      · exact Option.noConfusion h
      · rcases hget : (e :: vec2).get? pos with _ | next <;> simp only [hget] at h
        · exact Option.noConfusion h
        · have hrec := ih next (swapRemove (e :: vec2) pos)
            (acc ++ [(curr.i, curr.point_i)]) out h
          have hpos : pos < (e :: vec2).length := by
            by_contra hc
            push_neg at hc
            rw [List.get?_eq_none.mpr hc] at hget
            exact Option.noConfusion hget
          have hsw := swapRemove_perm (e :: vec2) pos hpos
          have hcons := cons_eraseIdx_perm (e :: vec2) pos next hget
          have h3 : (next.i :: (swapRemove (e :: vec2) pos).map Edge.i).Perm
              ((e :: vec2).map Edge.i) :=
            ((hsw.map Edge.i).cons next.i).trans (by simpa using hcons.map Edge.i)
          simp only [List.map_append, List.map_cons, List.map_nil] at hrec
          have h4 : ((acc.map Prod.fst ++ [curr.i]) ++
              next.i :: (swapRemove (e :: vec2) pos).map Edge.i) =
              (acc.map Prod.fst ++
                (curr.i :: next.i :: (swapRemove (e :: vec2) pos).map Edge.i)) := by
            simp
          rw [h4] at hrec
          refine hrec.trans ?_
          exact List.Perm.append_left _ (h3.cons curr.i)

/-- `sortHull`'s output indices are a permutation of the finalized edges'
start indices. -/
theorem sortHull_perm (hull : List Edge) (out : List (ℕ × Pt))
    (h : sortHull hull = some out) :
    (out.map Prod.fst).Perm (hull.map Edge.i) := by
  unfold sortHull at h
  rcases hlast : hull.getLast? with _ | curr <;> rw [hlast] at h
  · exact Option.noConfusion h
  · have hrec := sortLoop_perm hull.length curr hull.dropLast [] out h
    have hne : hull ≠ [] := by
      intro hc
      rw [hc] at hlast
      exact Option.noConfusion hlast
    have hcurr : hull.getLast hne = curr := by
      have h3 := List.getLast?_eq_getLast hull hne
      rw [h3] at hlast
      injection hlast with h4
    have hfull : hull.dropLast ++ [curr] = hull := by
      have h2 := List.dropLast_append_getLast hne
      rwa [hcurr] at h2
    have hmapi : hull.map Edge.i = hull.dropLast.map Edge.i ++ [curr.i] := by
      conv_lhs => rw [← hfull]
      simp
    rw [hmapi]
    refine hrec.trans ?_
    simp only [List.map_nil, List.nil_append]
    exact (List.perm_append_singleton curr.i _).symm

/-! ## Index-uniqueness invariant of the refinement loop -/

/-- Pointwise success of `mapMO` as a `Forall₂`. -/
theorem mapMO_forall2 {α β : Type} (f : α → Option β) :
    ∀ (l : List α) (out : List β), mapMO f l = some out →
      List.Forall₂ (fun a b => f a = some b) l out := by
  intro l
  induction l with
  | nil =>
    intro out h
    injection h with h1
    subst h1
    exact List.Forall₂.nil
  | cons a l ih =>
    intro out h
    rcases hfa : f a with _ | b
    · simp only [mapMO, hfa] at h
      exact Option.noConfusion h
    · rcases hml : mapMO f l with _ | bs
      · simp only [mapMO, hfa, hml] at h
        exact Option.noConfusion h
      · simp only [mapMO, hfa, hml] at h
        injection h with h1
        subst h1
        exact List.Forall₂.cons hfa (ih bs hml)

/-- Mapping both sides of a `Forall₂` that determines images. -/
theorem forall2_map_eq {α β γ : Type} {P : α → β → Prop} (g1 : α → γ) (g2 : β → γ)
    (hP : ∀ a b, P a b → g2 b = g1 a) :
    ∀ {l1 : List α} {l2 : List β}, List.Forall₂ P l1 l2 → l2.map g2 = l1.map g1 := by
  intro l1 l2 h
  induction h with
  | nil => rfl
  | cons hab htail ih => simp [List.map_cons, ih, hP _ _ hab]

/-- Reading every position of a list back off gives the list. -/
theorem map_getD_range {α : Type} (d : α) :
    ∀ (l : List α), (List.range l.length).map (fun k => l.getD k d) = l := by
  intro l
  induction l with
  | nil => rfl
  | cons a l ih =>
    rw [List.length_cons, List.range_succ_eq_map]
    simp only [List.map_cons, List.map_map]
    have h2 : (List.range l.length).map ((fun k => (a :: l).getD k d) ∘ Nat.succ) = l :=
      (List.map_congr_left (fun k _ => rfl)).trans ih
    rw [h2]
    rfl

/-- Inversion of a successful `Edge::new`. -/
theorem mk?_inv {i j : ℕ} {pts : List Pt} {e : Edge}
    (h : Edge.mk? i j pts = some e) :
    e.i = i ∧ e.j = j ∧ pts.get? i = some e.point_i ∧ pts.get? j = some e.point_j := by
  rcases h1 : pts.get? i with _ | a
  · simp only [Edge.mk?, h1] at h
    exact Option.noConfusion h
  · rcases h2 : pts.get? j with _ | b
    · simp only [Edge.mk?, h1, h2] at h
      exact Option.noConfusion h
    · simp only [Edge.mk?, h1, h2] at h
      injection h with h3
      subst h3
      exact ⟨rfl, rfl, rfl, rfl⟩

/-- The seeded heap's start indices are exactly the convex hull sequence. -/
theorem initEdges_map_i (pts : List Pt) (conv : List ℕ) (heap : List Edge)
    (h : initEdges pts conv = some heap) : heap.map Edge.i = conv := by
  have hf2 := mapMO_forall2 _ _ _ h
  have hmap : heap.map Edge.i = (List.range conv.length).map (fun id => conv.getD id 0) :=
    forall2_map_eq (fun id => conv.getD id 0) Edge.i (fun id e he => (mk?_inv he).1) hf2
  rw [hmap]
  have := map_getD_range (0 : ℕ) conv
  simpa using this

/-- The refinement loop preserves pairwise-distinct start indices (all of
them boundary members) and hands them to the finalized hull. -/
theorem loop_nodup (angle : Pt → Pt → ℚ) (pts : List Pt) (csq : Conc) :
    ∀ (fuel : ℕ) (heap : List Edge) (boundary : Finset ℕ) (hull hull2 : List Edge),
      ((heap ++ hull).map Edge.i).Nodup →
      (∀ e ∈ heap ++ hull, e.i ∈ boundary) →
      loop angle pts csq fuel heap boundary hull = .out hull2 →
      (hull2.map Edge.i).Nodup := by
  intro fuel
  induction fuel with
  | zero =>
    intro heap boundary hull hull2 hnd hmem h
    rcases hpop : popMax heap with _ | ⟨edge, rest⟩ <;> simp only [loop, hpop] at h
    · injection h with h1
      subst h1
      rw [eq_nil_of_popMax heap hpop] at hnd
      simpa using hnd
    · exact LoopRes.noConfusion h
  | succ fuel ih =>
    intro heap boundary hull hull2 hnd hmem h
    rcases hpop : popMax heap with _ | ⟨edge, rest⟩ <;> simp only [loop, hpop] at h
    · injection h with h1
      subst h1
      rw [eq_nil_of_popMax heap hpop] at hnd
      simpa using hnd
    · have hperm0 : heap.Perm (edge :: rest) := popMax_perm heap edge rest hpop
      have hedge_mem : edge ∈ heap ++ hull :=
        List.mem_append_left hull (hperm0.symm.subset (List.mem_cons_self _ _))
      cases hstep : refineStep angle pts csq edge rest boundary hull with
      | accepted h2 b2 hl2 =>
        simp only [hstep] at h
        obtain ⟨he1, he2, he3⟩ := refineStep_accepted hstep
        rw [he1, he2, he3] at h
        have hperm : (rest ++ (hull ++ [edge])).Perm (heap ++ hull) := by
          rw [← List.append_assoc]
          exact (List.perm_append_singleton edge (rest ++ hull)).trans
            ((hperm0.append_right hull).symm)
        refine ih rest boundary (hull ++ [edge]) hull2 ?_ ?_ h
        · exact ((hperm.map Edge.i).nodup_iff).mpr hnd
        · intro e he
          exact hmem e (hperm.subset he)
      | splitted h2 b2 hl2 =>
        simp only [hstep] at h
        obtain ⟨bi, bp, ba, hbc, hgt, hmemb, hall, he1, he2, he3⟩ :=
          refineStep_splitted hstep
        rw [he1, he2, he3] at h
        have hperm1 : ((heap ++ hull).map Edge.i).Perm
            (edge.i :: (rest ++ hull).map Edge.i) := by
          have := (hperm0.append_right hull).map Edge.i
          simpa using this
        have hnd2 : (edge.i :: ((rest ++ hull).map Edge.i)).Nodup :=
          (hperm1.nodup_iff).mp hnd
        have hsub : ∀ e2x ∈ rest ++ hull, e2x ∈ heap ++ hull := by
          intro e2x he2x
          rcases List.mem_append.mp he2x with hr | hh
          · exact List.mem_append_left hull
              (hperm0.symm.subset (List.mem_cons_of_mem edge hr))
          · exact List.mem_append_right heap hh
        have hfresh : bi ∉ (edge.i :: (rest ++ hull).map Edge.i) := by
          intro hc
          rcases List.mem_cons.mp hc with hc1 | hc2
          · exact hmemb (hc1 ▸ hmem edge hedge_mem)
          · obtain ⟨e2x, he2x, he2i⟩ := List.mem_map.mp hc2
            exact hmemb (he2i ▸ hmem e2x (hsub e2x he2x))
        refine ih _ _ _ hull2 ?_ ?_ h
        · show (((edge.split_by bp bi).1 :: (edge.split_by bp bi).2 ::
            (rest ++ hull)).map Edge.i).Nodup
          simp only [List.map_cons]
          show (edge.i :: bi :: (rest ++ hull).map Edge.i).Nodup
          refine List.nodup_cons.mpr ⟨?_, List.nodup_cons.mpr ⟨?_, ?_⟩⟩
          · intro hc
            rcases List.mem_cons.mp hc with hc1 | hc2
            · exact hfresh (List.mem_cons.mpr (Or.inl hc1.symm))
            · exact (List.nodup_cons.mp hnd2).1 hc2
          · intro hc
            exact hfresh (List.mem_cons_of_mem _ hc)
          · exact (List.nodup_cons.mp hnd2).2
        · intro e he
          rcases List.mem_append.mp he with hl | hh
          · rcases List.mem_cons.mp hl with rfl | hl2
            · exact Finset.mem_insert_of_mem (hmem edge hedge_mem)
            · rcases List.mem_cons.mp hl2 with rfl | hl3
              · exact Finset.mem_insert_self bi boundary
              · exact Finset.mem_insert_of_mem (hmem e (List.mem_append_left hull
                  (hperm0.symm.subset (List.mem_cons_of_mem edge hl3))))
          · exact Finset.mem_insert_of_mem (hmem e (List.mem_append_right heap hh))
      | panicked =>
        simp only [hstep] at h
        exact LoopRes.noConfusion h

/-- C8: every original point index appears at most once in the output of
`concave_hull_inner` (its index sequence is `Nodup`), and the reconstruction
emits each finalized-ring start index exactly once (its output indices are a
permutation of the finalized edges' `i`-fields). -/
theorem claim_C8 (angle : Pt → Pt → ℚ) (pts : List Pt) (conc : Conc)
    (conv : List ℕ) (out : List (ℕ × Pt)) (hull : List Edge)
    (out2 : List (ℕ × Pt))
    (hnd : conv.Nodup)
    (hrun : concave_hull_inner angle pts conc conv = some out)
    (hsort : sortHull hull = some out2) :
    (out.map Prod.fst).Nodup ∧ (out2.map Prod.fst).Perm (hull.map Edge.i) := by
  constructor
  · unfold concave_hull_inner at hrun
    split at hrun
    · have hf2 := mapMO_forall2 _ _ _ hrun
      have hfst : out.map Prod.fst = conv := by
        have h2 := forall2_map_eq (fun id => id) Prod.fst
          (fun a b hab => by
            obtain ⟨p, hp1, hp2⟩ := Option.map_eq_some'.mp hab
            rw [← hp2]) hf2
        simpa using h2
      rw [hfst]
      exact hnd
    · rcases hinit : initEdges pts conv with _ | heap <;> simp only [hinit] at hrun
      · exact Option.noConfusion hrun
      · cases hloop : loop angle pts conc.powi2 (loopFuel pts heap) heap
            conv.toFinset [] with
        | out hull3 =>
          rw [hloop] at hrun
          have hmapi := initEdges_map_i pts conv heap hinit
          have hndh : ((heap ++ ([] : List Edge)).map Edge.i).Nodup := by
            rw [List.append_nil, hmapi]
            exact hnd
          have hmemh : ∀ e ∈ heap ++ ([] : List Edge), e.i ∈ conv.toFinset := by
            intro e he
            rw [List.append_nil] at he
            apply List.mem_toFinset.mpr
            rw [← hmapi]
            exact List.mem_map_of_mem Edge.i he
          have hnodup3 : (hull3.map Edge.i).Nodup :=
            loop_nodup angle pts conc.powi2 (loopFuel pts heap) heap
              conv.toFinset [] hull3 hndh hmemh hloop
          exact ((sortHull_perm hull3 out hrun).nodup_iff).mpr hnodup3
        | panicked =>
          simp only [hloop] at hrun
          exact Option.noConfusion hrun
        | fuelout =>
          simp only [hloop] at hrun
          exact Option.noConfusion hrun
  · exact sortHull_perm hull out2 hsort

/-- Witness for C8: the full pipeline on `wQuad` at infinite concavity, and
the reconstruction of its convex ring. -/
theorem claim_C8_witness :
    (([(3, (⟨1, 6⟩ : Pt)), (0, ⟨0, 0⟩), (1, ⟨10, 0⟩), (2, ⟨10, 7⟩)].map
      Prod.fst).Nodup) ∧
    (([(3, (⟨1, 6⟩ : Pt)), (0, ⟨0, 0⟩), (1, ⟨10, 0⟩), (2, ⟨10, 7⟩)].map
      Prod.fst).Perm ((cycleEdges wQuad [0, 1, 2, 3]).map Edge.i)) :=
  claim_C8 pseudoAngle wQuad .inf [0, 1, 2, 3]
    [(3, ⟨1, 6⟩), (0, ⟨0, 0⟩), (1, ⟨10, 0⟩), (2, ⟨10, 7⟩)]
    (cycleEdges wQuad [0, 1, 2, 3])
    [(3, ⟨1, 6⟩), (0, ⟨0, 0⟩), (1, ⟨10, 0⟩), (2, ⟨10, 7⟩)]
    (by decide) (by with_unfolding_all decide) (by with_unfolding_all decide)

/-! ## Infinite concavity: the loop accepts everything -/

/-- With `csq = +∞` every popped edge is accepted, so the loop finalizes a
permutation of the heap (appended in pop order) and touches nothing else. -/
theorem loop_inf (angle : Pt → Pt → ℚ) (pts : List Pt) :
    ∀ (fuel : ℕ) (heap : List Edge) (boundary : Finset ℕ) (hull : List Edge),
      heap.length ≤ fuel →
      ∃ s, s.Perm heap ∧
        loop angle pts Conc.inf fuel heap boundary hull = .out (hull ++ s) := by
  intro fuel
  induction fuel with
  | zero =>
    intro heap boundary hull hle
    have hheap : heap = [] := by
      cases heap with
      | nil => rfl
      | cons a es => simp at hle
    subst hheap
    exact ⟨[], List.Perm.refl _, by simp [loop, popMax]⟩
  | succ fuel ih =>
    intro heap boundary hull hle
    rcases hpop : popMax heap with _ | ⟨edge, rest⟩
    · have hheap := eq_nil_of_popMax heap hpop
      subst hheap
      exact ⟨[], List.Perm.refl _, by simp [loop, popMax]⟩
    · have hstep : refineStep angle pts Conc.inf edge rest boundary hull =
          .accepted rest boundary (hull ++ [edge]) := by
        simp [refineStep, gtConc]
      have hlen := popMax_length heap edge rest hpop
      obtain ⟨s2, hs2perm, hs2eq⟩ := ih rest boundary (hull ++ [edge]) (by omega)
      refine ⟨edge :: s2, ?_, ?_⟩
      · exact (hs2perm.cons edge).trans (popMax_perm heap edge rest hpop).symm
      · have heq2 : loop angle pts Conc.inf (fuel + 1) heap boundary hull =
            loop angle pts Conc.inf fuel rest boundary (hull ++ [edge]) := by
          simp only [loop, hpop, hstep]
        rw [heq2, hs2eq]
        congr 1
        simp

/-! ## The initial edge cycle and its reconstruction -/

/-- There are as many initial edges as hull vertices. -/
theorem cycleEdges_length (pts : List Pt) (conv : List ℕ) :
    (cycleEdges pts conv).length = conv.length := by
  simp [cycleEdges]

/-- Indexing the initial edge list. -/
theorem cycleEdges_getElem (pts : List Pt) (conv : List ℕ) (k : ℕ)
    (h : k < (cycleEdges pts conv).length) :
    (cycleEdges pts conv)[k] = cycleEdge pts conv k := by
  simp [cycleEdges]

/-- `initEdges` succeeds on an in-bounds hull and produces `cycleEdges`. -/
theorem initEdges_eq (pts : List Pt) (conv : List ℕ)
    (hv : ∀ id ∈ conv, id < pts.length) (hne : conv ≠ []) :
    initEdges pts conv = some (cycleEdges pts conv) := by
  apply mapMO_some
  intro id hid
  have hidlt : id < conv.length := List.mem_range.mp hid
  have hlen0 : 0 < conv.length := by
    cases conv with
    | nil => exact absurd rfl hne
    | cons a l => simp
  have hmem1 : conv.getD id 0 ∈ conv := by
    rw [List.getD_eq_getElem conv 0 hidlt]
    exact List.getElem_mem _
  have hmem2 : conv.getD ((id + 1) % conv.length) 0 ∈ conv := by
    rw [List.getD_eq_getElem conv 0 (Nat.mod_lt _ hlen0)]
    exact List.getElem_mem _
  have h1 : conv.getD id 0 < pts.length := hv _ hmem1
  have h2 : conv.getD ((id + 1) % conv.length) 0 < pts.length := hv _ hmem2
  unfold Edge.mk? cycleEdge mkEdge
  rw [get?_getD default _ _ h1, get?_getD default _ _ h2]

/-- `getD` positions of a `Nodup` list are injective. -/
theorem nodup_getD_inj (conv : List ℕ) (hnd : conv.Nodup) {k1 k2 : ℕ}
    (h1 : k1 < conv.length) (h2 : k2 < conv.length)
    (he : conv.getD k1 0 = conv.getD k2 0) : k1 = k2 := by
  rw [List.getD_eq_getElem conv 0 h1, List.getD_eq_getElem conv 0 h2] at he
  exact (hnd.getElem_inj_iff).mp he

/-- `findIdx?` on a list holding exactly one satisfying element finds it. -/
theorem findIdx?_unique {α : Type} {p : α → Bool} {x : α} :
    ∀ (vec : List α), x ∈ vec → p x = true → (∀ y ∈ vec, p y = true → y = x) →
      ∃ pos, List.findIdx? p vec = some pos ∧ vec.get? pos = some x := by
  intro vec
  induction vec with
  | nil => intro hx; cases hx
  | cons a vec2 ih =>
    intro hx hpx huniq
    by_cases hpa : p a = true
    · have hax : a = x := huniq a (List.mem_cons_self _ _) hpa
      refine ⟨0, ?_, ?_⟩
      · rw [List.findIdx?_cons, if_pos hpa]
      · rw [hax]
        rfl
    · have hx2 : x ∈ vec2 := by
        rcases List.mem_cons.mp hx with rfl | h2
        · exact absurd hpx hpa
        · exact h2
      obtain ⟨pos, hfind, hget⟩ :=
        ih hx2 hpx (fun y hy => huniq y (List.mem_cons_of_mem a hy))
      refine ⟨pos + 1, ?_, hget⟩
      rw [List.findIdx?_cons, if_neg hpa, List.findIdx?_succ, hfind]
      rfl

/-- Rotating commutes with reading positions. -/
theorem getD_rotate (conv : List ℕ) (r k : ℕ) (hk : k < conv.length) :
    (conv.rotate r).getD k 0 = conv.getD ((k + r) % conv.length) 0 := by
  have h1 : k < (conv.rotate r).length := by rwa [List.length_rotate]
  have h2 : (k + r) % conv.length < conv.length := Nat.mod_lt _ (by omega)
  rw [List.getD_eq_getElem (conv.rotate r) 0 h1, List.getD_eq_getElem conv 0 h2]
  exact List.getElem_rotate conv r k h1

/-- The edge cycle of a rotated hull is the rotated edge cycle. -/
theorem cycleEdges_rotate (pts : List Pt) (conv : List ℕ) (r : ℕ) :
    cycleEdges pts (conv.rotate r) = (cycleEdges pts conv).rotate r := by
  apply List.ext_getElem
  · simp [cycleEdges, List.length_rotate]
  · intro k h1 h2
    have hk : k < conv.length := by
      simpa [cycleEdges, List.length_rotate] using h1
    have hm : 0 < conv.length := by omega
    rw [cycleEdges_getElem, List.getElem_rotate, cycleEdges_getElem]
    rw [show (cycleEdges pts conv).length = conv.length from cycleEdges_length pts conv]
    have hi : (conv.rotate r).getD k 0 = conv.getD ((k + r) % conv.length) 0 :=
      getD_rotate conv r k hk
    have hj : (conv.rotate r).getD ((k + 1) % (conv.rotate r).length) 0 =
        conv.getD (((k + r) % conv.length + 1) % conv.length) 0 := by
      rw [List.length_rotate]
      rw [getD_rotate conv r ((k + 1) % conv.length) (Nat.mod_lt _ hm)]
      congr 1
      rw [Nat.mod_add_mod, Nat.mod_add_mod]
      congr 1
      omega
    unfold cycleEdge mkEdge
    rw [hi, hj]

/-- Pairing a hull index with its stored point, as the output sequence
emits it. -/
def outPair (pts : List Pt) (id : ℕ) : ℕ × Pt := (id, pts.getD id default)

/-- Reconstruction walk, exhausted-vector case: when the walk holds the last
cycle edge and nothing remains, it emits that edge's start. -/
theorem sortLoop_cycle_nil (pts : List Pt) (conv : List ℕ) (fuel t : ℕ)
    (acc : List (ℕ × Pt)) (ht : t < conv.length) (hlast : conv.length ≤ t + 1) :
    sortLoop fuel (cycleEdge pts conv t) [] acc =
      some (acc ++ (conv.drop t).map (outPair pts)) := by
  simp only [sortLoop]
  congr 1
  have hdrop : conv.drop t = [conv.getD t 0] := by
    rw [List.drop_eq_getElem_cons ht, List.drop_eq_nil_of_le (by omega)]
    rw [List.getD_eq_getElem conv 0 ht]
  rw [hdrop]
  rfl

/-- Reconstruction walk along the cycle: starting at cycle edge `t` with the
rest of the cycle pending (in any order), the walk emits the hull indices
from `t` on, in cycle order. -/
theorem sortLoop_cycle (pts : List Pt) (conv : List ℕ) (hnd : conv.Nodup) :
    ∀ (fuel t : ℕ) (vec : List Edge) (acc : List (ℕ × Pt)),
      t < conv.length →
      vec.Perm ((cycleEdges pts conv).drop (t + 1)) →
      conv.length - (t + 1) ≤ fuel →
      sortLoop fuel (cycleEdge pts conv t) vec acc =
        some (acc ++ (conv.drop t).map (outPair pts)) := by
  intro fuel
  induction fuel with
  | zero =>
    intro t vec acc ht hperm hfuel
    have hlen0 : ((cycleEdges pts conv).drop (t + 1)).length = 0 := by
      rw [List.length_drop, cycleEdges_length]
      omega
    have hvec : vec = [] :=
      List.length_eq_zero.mp (hperm.length_eq.trans hlen0)
    subst hvec
    exact sortLoop_cycle_nil pts conv 0 t acc ht (by omega)
  | succ fuel ih =>
    intro t vec acc ht hperm hfuel
    cases vec with
    | nil =>
      have hlen0 : ((cycleEdges pts conv).drop (t + 1)).length = 0 := by
        rw [← hperm.length_eq]
        rfl
      rw [List.length_drop, cycleEdges_length] at hlen0
      exact sortLoop_cycle_nil pts conv (fuel + 1) t acc ht (by omega)
    | cons v vec2 =>
      have hm : t + 1 < conv.length := by
        have hl := hperm.length_eq
        rw [List.length_drop, cycleEdges_length] at hl
        simp only [List.length_cons] at hl
        omega
      have hEdrop : (cycleEdges pts conv).drop (t + 1) =
          cycleEdge pts conv (t + 1) :: (cycleEdges pts conv).drop (t + 2) := by
        rw [List.drop_eq_getElem_cons
          (show t + 1 < (cycleEdges pts conv).length by rw [cycleEdges_length]; omega)]
        rw [cycleEdges_getElem]
      have hcurrj : (cycleEdge pts conv t).j = conv.getD (t + 1) 0 := by
        show conv.getD ((t + 1) % conv.length) 0 = conv.getD (t + 1) 0
        rw [Nat.mod_eq_of_lt hm]
      have hxmem : cycleEdge pts conv (t + 1) ∈ v :: vec2 := by
        apply (hperm.mem_iff).mpr
        rw [hEdrop]
        exact List.mem_cons_self _ _
      have hpx : ((cycleEdge pts conv (t + 1)).i == (cycleEdge pts conv t).j) = true := by
        rw [hcurrj]
        exact beq_self_eq_true _
      have huniq : ∀ y ∈ v :: vec2,
          (y.i == (cycleEdge pts conv t).j) = true → y = cycleEdge pts conv (t + 1) := by
        intro y hy hp
        have hyE : y ∈ cycleEdges pts conv :=
          List.mem_of_mem_drop (hperm.subset hy)
        obtain ⟨k, hkr, hky⟩ := List.mem_map.mp hyE
        have hk : k < conv.length := List.mem_range.mp hkr
        have hp2 : y.i = conv.getD (t + 1) 0 := by
          rw [← hcurrj]
          simpa using hp
        have heq : conv.getD k 0 = conv.getD (t + 1) 0 := by
          rw [show conv.getD k 0 = (cycleEdge pts conv k).i from rfl, hky]
          exact hp2
        rw [← hky, nodup_getD_inj conv hnd hk hm heq]
      obtain ⟨pos, hfind, hget⟩ := findIdx?_unique (v :: vec2) hxmem hpx huniq
      have hpos : pos < (v :: vec2).length := by
        by_contra hc
        push_neg at hc
        rw [List.get?_eq_none.mpr hc] at hget
        exact Option.noConfusion hget
      have hswperm : (swapRemove (v :: vec2) pos).Perm
          ((cycleEdges pts conv).drop (t + 2)) := by
        have hsw := swapRemove_perm (v :: vec2) pos hpos
        have hcons := cons_eraseIdx_perm (v :: vec2) pos _ hget
        have h3 : (cycleEdge pts conv (t + 1) :: (v :: vec2).eraseIdx pos).Perm
            (cycleEdge pts conv (t + 1) :: (cycleEdges pts conv).drop (t + 2)) :=
          hcons.trans (hperm.trans (by rw [hEdrop]))
        exact hsw.trans h3.cons_inv
      have hrec := ih (t + 1) (swapRemove (v :: vec2) pos)
        (acc ++ [((cycleEdge pts conv t).i, (cycleEdge pts conv t).point_i)])
        hm hswperm (by omega)
      simp only [sortLoop]
      simp only [hfind, hget]
      rw [hrec]
      rw [List.append_assoc]
      congr 1
      have hdropt : conv.drop t = conv.getD t 0 :: conv.drop (t + 1) := by
        rw [List.drop_eq_getElem_cons ht, List.getD_eq_getElem conv 0 ht]
      rw [hdropt]
      rfl

/-- C1 (amended): with `concavity = +∞` and more than 3 points, the output
of the refinement pipeline is the convex hull provider's output up to
rotation: the same indices in the same cyclic order, starting from some
position `r` of the provider's sequence.  (Exact positional equality fails:
see `claim_C1_counterexample`.) -/
theorem claim_C1 (angle : Pt → Pt → ℚ) (pts : List Pt) (conv : List ℕ)
    (h3 : 3 < pts.length) (hnd : conv.Nodup) (hne : conv ≠ [])
    (hv : ∀ id ∈ conv, id < pts.length) :
    ∃ r < conv.length, concave_hull_inner angle pts .inf conv =
      some ((conv.rotate r).map (outPair pts)) := by
  have hm : 0 < conv.length := List.length_pos.mpr hne
  obtain ⟨s, hsperm, hsloop⟩ := loop_inf angle pts
    (loopFuel pts (cycleEdges pts conv)) (cycleEdges pts conv) conv.toFinset []
    (by unfold loopFuel; omega)
  have hslen : s.length = conv.length := by
    rw [hsperm.length_eq, cycleEdges_length]
  have hsne : s ≠ [] := by
    intro hc
    rw [hc] at hslen
    simp at hslen
    omega
  have hlastmem : s.getLast hsne ∈ cycleEdges pts conv :=
    hsperm.subset (List.getLast_mem hsne)
  obtain ⟨r, hrr, hry⟩ := List.mem_map.mp hlastmem
  have hr : r < conv.length := List.mem_range.mp hrr
  refine ⟨r, hr, ?_⟩
  have hinner : concave_hull_inner angle pts Conc.inf conv = sortHull s := by
    unfold concave_hull_inner
    rw [if_neg (by omega : ¬(pts.length ≤ 3))]
    simp only [initEdges_eq pts conv hv hne]
    rw [show Conc.powi2 Conc.inf = Conc.inf from rfl]
    simp only [hsloop]
    rw [List.nil_append]
  rw [hinner]
  unfold sortHull
  simp only [List.getLast?_eq_getLast s hsne]
  have hlast_eq : cycleEdge pts (conv.rotate r) 0 = s.getLast hsne := by
    rw [← hry]
    unfold cycleEdge mkEdge
    rw [List.length_rotate]
    rw [getD_rotate conv r 0 hm, getD_rotate conv r (1 % conv.length) (Nat.mod_lt _ hm)]
    have e1 : (0 + r) % conv.length = r := by
      rw [Nat.zero_add, Nat.mod_eq_of_lt hr]
    have e2 : (1 % conv.length + r) % conv.length = (r + 1) % conv.length := by
      rw [Nat.mod_add_mod]
      congr 1
      omega
    rw [e1, e2]
  have hnd2 : (conv.rotate r).Nodup := by rwa [List.nodup_rotate]
  have hm2 : (0 : ℕ) < (conv.rotate r).length := by rwa [List.length_rotate]
  have hsplit : s.dropLast ++ [s.getLast hsne] = s :=
    List.dropLast_append_getLast hsne
  have hE2len : 0 < (cycleEdges pts (conv.rotate r)).length := by
    rw [cycleEdges_length, List.length_rotate]
    omega
  have hE2 : cycleEdges pts (conv.rotate r) =
      cycleEdge pts (conv.rotate r) 0 :: (cycleEdges pts (conv.rotate r)).drop 1 := by
    have h2 := List.drop_eq_getElem_cons hE2len
    rw [List.drop_zero, cycleEdges_getElem] at h2
    exact h2
  have hsE2 : s.Perm (cycleEdges pts (conv.rotate r)) := by
    rw [cycleEdges_rotate]
    exact hsperm.trans (List.rotate_perm (cycleEdges pts conv) r).symm
  have hcons : (s.getLast hsne :: s.dropLast).Perm
      (s.getLast hsne :: (cycleEdges pts (conv.rotate r)).drop 1) := by
    have p1 : (s.getLast hsne :: s.dropLast).Perm s := by
      have p0 := (List.perm_append_singleton (s.getLast hsne) s.dropLast).symm
      rw [hsplit] at p0
      exact p0
    have p2 : s.Perm (s.getLast hsne :: (cycleEdges pts (conv.rotate r)).drop 1) := by
      rw [← hlast_eq, ← hE2]
      exact hsE2
    exact p1.trans p2
  have hdperm : s.dropLast.Perm ((cycleEdges pts (conv.rotate r)).drop (0 + 1)) :=
    hcons.cons_inv
  have hwalk := sortLoop_cycle pts (conv.rotate r) hnd2 s.length 0 s.dropLast []
    hm2 hdperm (by rw [List.length_rotate]; omega)
  rw [hlast_eq] at hwalk
  rw [hwalk]
  rw [List.nil_append, List.drop_zero]

/-- Counterexample to C1 as stated: on the quadrilateral `wQuad` with hull
`[0, 1, 2, 3]` and infinite concavity, the pipeline returns the rotation
starting at index 3 (the start of the shortest edge, which is popped last),
not the provider's sequence itself. -/
theorem claim_C1_counterexample :
    concave_hull_inner pseudoAngle wQuad .inf [0, 1, 2, 3] =
      some ([3, 0, 1, 2].map (outPair wQuad)) ∧
    concave_hull_inner pseudoAngle wQuad .inf [0, 1, 2, 3] ≠
      some ([0, 1, 2, 3].map (outPair wQuad)) := by
  with_unfolding_all decide

/-- Witness for C1 at the concrete quadrilateral. -/
theorem claim_C1_witness :
    ∃ r < 4, concave_hull_inner pseudoAngle wQuad .inf [0, 1, 2, 3] =
      some (([0, 1, 2, 3].rotate r).map (outPair wQuad)) :=
  claim_C1 pseudoAngle wQuad [0, 1, 2, 3] (by decide) (by decide) (by decide)
    (by decide)

end CH

